import Mathlib

/-!
Verification of the arena-indexed recursive-tree engine
(`src/recursive_tree/arena_eval.rs`) and its example drivers
(`src/examples/linked_list.rs`, `examples/filetree/mod.rs`).

Modelling conventions:
* A single tree layer (the `MapLayer` contract: a shape with an ordered list
  of immediate children) is the container `Layer S C`: non-child data `shape`
  and the ordered child list `children`.  `map_layer` replaces the children
  and keeps the shape, exactly as the trait contract demands.
* Arena indices (`ArenaIndex(usize)`) are `Nat`.
* A store (`RecursiveTree`) is the plain list of its `elems`.
* Machine integers are `Nat`; `usize` subtraction that can underflow is
  modelled with explicit guards where the Rust behaviour (panic) matters.
* Fallible paths (panics, fuel exhaustion of a possibly nonterminating
  loop) are `Option`; the async generator result is `Except`.
* The `MaybeUninit` scratch arrays of the unchecked collapse variants are
  modelled as `List A` whose uninitialised slots hold an arbitrary `junk`
  value: reading a never-written or already-taken slot silently yields
  `junk`, which is the undefined-behaviour reality of `assume_init` on an
  uninitialised slot.  A second, checked instrumentation models the same
  algorithm with `Option` slots where such a read is a detected failure.
-/

set_option maxHeartbeats 1000000

/-- Layer of a recursive structure: non-child data `shape` plus the ordered
list of immediate children, the shallow embedding of the `MapLayer` trait
contract (map over immediate children only, deterministic order). -/
structure Layer (S : Type) (C : Type) where
  shape : S
  children : List C
deriving DecidableEq, Repr

namespace Layer

/-- The `map_layer` operation: replace every immediate child, keep the shape. -/
def mapLayer {S C C' : Type} (l : Layer S C) (f : C → C') : Layer S C' :=
  ⟨l.shape, l.children.map f⟩

end Layer

/-- Rose tree denoted by a store: one constructor holding the layer shape and
the list of child subtrees. -/
inductive RTree (S : Type) : Type where
  | node : S → List (RTree S) → RTree S
deriving Repr

namespace RTree

/-- Bottom-up fold (catamorphism) of a denoted tree with a reducer over
index-free layers. -/
def fold {S A : Type} (g : Layer S A → A) : RTree S → A
  | .node s ts => g ⟨s, ts.attach.map (fun x => fold g x.1)⟩
termination_by t => sizeOf t
decreasing_by
  have := List.sizeOf_lt_of_mem x.2
  simp only [RTree.node.sizeOf_spec]
  omega

end RTree

/-- Option-valued `mapM` over a list, written as explicit recursion so that
it unfolds definitionally in computations. -/
def optMapM {α β : Type} (f : α → Option β) : List α → Option (List β)
  | [] => some []
  | a :: as =>
    match f a with
    | none => none
    | some b =>
      match optMapM f as with
      | none => none
      | some bs => some (b :: bs)

/-- Denotation of a store viewed through offset `o`: the tree rooted at
slice position `i`, where a child with absolute arena index `c` lives at
slice position `c - o`.  `fuel` bounds the recursion depth; `none` means the
store is not well founded within the given fuel. -/
def denoteV {S : Type} (el : List (Layer S Nat)) (o : Nat) : Nat → Nat → Option (RTree S)
  | 0, _ => none
  | fuel + 1, i =>
    match el.get? i with
    | none => none
    | some l =>
      match optMapM (fun c => denoteV el o fuel (c - o)) l.children with
      | none => none
      | some ts => some (RTree.node l.shape ts)

/-- List of every child arena index referenced anywhere in a store, in
element order. -/
def allChildren {S : Type} (el : List (Layer S Nat)) : List Nat :=
  el.flatMap Layer.children

/-!
Expand (`expand_layers`, lines 69-90 of arena_eval.rs).  The closure passed
to `map_layer` pushes each child seed onto the back of the frontier and
assigns it the arena index `elems.len() + frontier.len()` read after the
push.  `pushChildren` mirrors that stateful closure: it walks the children
of one layer in order, threading the frontier, and returns the final
frontier together with the assigned indices.
-/

/-- One `map_layer` pass of the expand loop: push every child seed onto the
frontier (a FIFO queue, front at the head of the list) and record the arena
index assigned to it, namely the output length plus the frontier length
right after the push. -/
def pushChildren {A : Type} (elemsLen : Nat) (frontier : List A) :
    List A → List A × List Nat
  | [] => (frontier, [])
  | c :: cs =>
    let frontier' := frontier ++ [c]
    let idx := elemsLen + frontier'.length
    let rest := pushChildren elemsLen frontier' cs
    (rest.1, idx :: rest.2)

/-- Main loop of `expand_layers`: pop the next seed, expand it into a layer,
replace child seeds by fresh arena indices while enqueuing them, append the
layer.  `fuel` bounds the number of iterations (the Rust loop runs until the
frontier empties, which need not happen); `none` models a run that has not
terminated within the fuel. -/
def expandLoop {S A : Type} (f : A → Layer S A) :
    Nat → List A → List (Layer S Nat) → Option (List (Layer S Nat))
  | _, [], elems => some elems
  | 0, _ :: _, _ => none
  | fuel + 1, seed :: fr, elems =>
    let layer := f seed
    let pushed := pushChildren elems.length fr layer.children
    expandLoop f fuel pushed.1 (elems ++ [⟨layer.shape, pushed.2⟩])

/-- Synchronous `Expand::expand_layers`: start with the single given seed. -/
def expand_layers {S A : Type} (f : A → Layer S A) (fuel : Nat) (a : A) :
    Option (List (Layer S Nat)) :=
  expandLoop f fuel [a] []

/-!
Asynchronous expand (`expand_layers_async`, lines 96-132).  Each dequeued
seed is awaited to completion before the next is dequeued, so the resolved
future is a plain function into `Except`: `Except.error e` is a failed
generation, and the `?` operator makes the whole build resolve to that
error at once.
-/

/-- Main loop of `expand_layers_async`.  Same frontier discipline as the
synchronous loop; the first generator failure aborts the whole build with
that error (the `?` on the awaited result). -/
def expandAsyncLoop {S A E : Type} (g : A → Except E (Layer S A)) :
    Nat → List A → List (Layer S Nat) → Option (Except E (List (Layer S Nat)))
  | _, [], elems => some (Except.ok elems)
  | 0, _ :: _, _ => none
  | fuel + 1, seed :: fr, elems =>
    match g seed with
    | Except.error e => some (Except.error e)
    | Except.ok layer =>
      let pushed := pushChildren elems.length fr layer.children
      expandAsyncLoop g fuel pushed.1 (elems ++ [⟨layer.shape, pushed.2⟩])

/-- Asynchronous `ExpandAsync::expand_layers_async`. -/
def expand_layers_async {S A E : Type} (g : A → Except E (Layer S A)) (fuel : Nat)
    (seed : A) : Option (Except E (List (Layer S Nat))) :=
  expandAsyncLoop g fuel [seed] []

/-- Instrumented async loop: identical control flow to `expandAsyncLoop`,
additionally returning the trace of seeds on which the generator was
invoked, in invocation (frontier) order. -/
def expandAsyncLoopTr {S A E : Type} (g : A → Except E (Layer S A)) :
    Nat → List A → List (Layer S Nat) →
      Option (Except E (List (Layer S Nat))) × List A
  | _, [], elems => (some (Except.ok elems), [])
  | 0, _ :: _, _ => (none, [])
  | fuel + 1, seed :: fr, elems =>
    match g seed with
    | Except.error e => (some (Except.error e), [seed])
    | Except.ok layer =>
      let pushed := pushChildren elems.length fr layer.children
      let rest := expandAsyncLoopTr g fuel pushed.1 (elems ++ [⟨layer.shape, pushed.2⟩])
      (rest.1, seed :: rest.2)

/-!
Collapse, owning variant (`Collapse::collapse_layers` for `RecursiveTree`,
lines 140-165).  The scratch vector of `MaybeUninit` slots is a `List A`
whose never-written slots hold an arbitrary `junk` value; the unchecked
take (`mem::replace` + `assume_init`) of slot `x` reads the slot and leaves
`junk` (uninitialised memory) behind.  A read of an unwritten or
already-taken slot silently yields `junk`: that is what the unsafe code
does, there is no check.
-/

/-- Read (take) the scratch slots of one layer of children, in order, for
the owning collapse: each read takes the current content of slot `c` and
replaces it by an uninitialised (junk) value. -/
def readChildrenU0 {A : Type} (junk : A) : List Nat → List A → List A × List A
  | [], r => ([], r)
  | c :: cs, r =>
    let v := r.getD c junk
    let rest := readChildrenU0 junk cs (r.set c junk)
    (v :: rest.1, rest.2)

/-- Descending scan of the owning collapse: counter `i + 1` processes the
element at position `i` (so the scan starts at the last element), taking
the child slots, applying the reducer and writing the result into slot `i`.
The out-of-range branch is never taken when the counter starts at the store
length. -/
def collapseDownU0 {S A : Type} (g : Layer S A → A) (junk : A)
    (el : List (Layer S Nat)) : Nat → List A → List A
  | 0, r => r
  | i + 1, r =>
    match el.get? i with
    | none => r
    | some node =>
      let read := readChildrenU0 junk node.children r
      collapseDownU0 g junk el i (read.2.set i (g ⟨node.shape, read.1⟩))

/-- Owning `collapse_layers`: allocate one scratch slot per element, scan
descending, and take the value of slot 0. -/
def collapse_layers {S A : Type} (junk : A) (el : List (Layer S Nat))
    (g : Layer S A → A) : A :=
  (collapseDownU0 g junk el el.length (List.replicate el.length junk)).getD 0 junk

/-!
Collapse, borrowed offset view (`Collapse::collapse_layers` for
`RecursiveTreeRefWithOffset`, lines 237-264): identical algorithm except
that a child with absolute arena index `c` is read from slot `c - offset`.
The `usize` subtraction underflowing (absolute index smaller than the
offset) makes the unchecked access undefined behaviour; it is modelled as
yielding `junk` and leaving the scratch array unchanged.
-/

/-- Read (take) the scratch slots of one layer of children for the offset
view collapse: slot positions are translated by the view offset. -/
def readChildrenU {A : Type} (junk : A) (o : Nat) : List Nat → List A → List A × List A
  | [], r => ([], r)
  | c :: cs, r =>
    if c < o then
      let rest := readChildrenU junk o cs r
      (junk :: rest.1, rest.2)
    else
      let v := r.getD (c - o) junk
      let rest := readChildrenU junk o cs (r.set (c - o) junk)
      (v :: rest.1, rest.2)

/-- Descending scan of the offset view collapse. -/
def collapseDownU {S A : Type} (g : Layer S A → A) (junk : A)
    (el : List (Layer S Nat)) (o : Nat) : Nat → List A → List A
  | 0, r => r
  | i + 1, r =>
    match el.get? i with
    | none => r
    | some node =>
      let read := readChildrenU junk o node.children r
      collapseDownU g junk el o i (read.2.set i (g ⟨node.shape, read.1⟩))

/-- Offset view `collapse_layers` (the impl the borrowing
`RecursiveTreeRef` collapse delegates to with offset 0). -/
def collapse_layers_off {S A : Type} (junk : A) (el : List (Layer S Nat)) (o : Nat)
    (g : Layer S A → A) : A :=
  (collapseDownU g junk el o el.length (List.replicate el.length junk)).getD 0 junk

/-!
Checked instrumentation of the two unchecked collapse variants: the same
algorithms with `Option` slots, where taking a never-written or
already-taken slot is a detected failure (`none`) instead of an
uninitialised read.  A `some` result certifies that every unchecked read of
the corresponding unsafe implementation hit a slot that was written and not
yet taken, i.e. that the uninitialised-read branch is unreachable.
-/

/-- Checked take of one layer of child slots, owning variant. -/
def readChildrenC0 {A : Type} : List Nat → List (Option A) →
    Option (List A × List (Option A))
  | [], r => some ([], r)
  | c :: cs, r =>
    match r.get? c with
    | some (some v) =>
      match readChildrenC0 cs (r.set c none) with
      | some rest => some (v :: rest.1, rest.2)
      | none => none
    | _ => none

/-- Checked descending scan, owning variant. -/
def collapseDownC0 {S A : Type} (g : Layer S A → A) (el : List (Layer S Nat)) :
    Nat → List (Option A) → Option (List (Option A))
  | 0, r => some r
  | i + 1, r =>
    match el.get? i with
    | none => none
    | some node =>
      match readChildrenC0 node.children r with
      | none => none
      | some read => collapseDownC0 g el i (read.2.set i (some (g ⟨node.shape, read.1⟩)))

/-- Checked owning collapse: `some` exactly when no unchecked read of the
unsafe implementation would touch an unwritten or consumed slot. -/
def collapse_layersC0 {S A : Type} (el : List (Layer S Nat)) (g : Layer S A → A) :
    Option A :=
  match collapseDownC0 g el el.length (List.replicate el.length none) with
  | none => none
  | some r =>
    match r.get? 0 with
    | some (some v) => some v
    | _ => none

/-- Checked take of one layer of child slots, offset view variant. -/
def readChildrenC {A : Type} (o : Nat) : List Nat → List (Option A) →
    Option (List A × List (Option A))
  | [], r => some ([], r)
  | c :: cs, r =>
    if c < o then none
    else
      match r.get? (c - o) with
      | some (some v) =>
        match readChildrenC o cs (r.set (c - o) none) with
        | some rest => some (v :: rest.1, rest.2)
        | none => none
      | _ => none

/-- Checked descending scan, offset view variant. -/
def collapseDownC {S A : Type} (g : Layer S A → A) (el : List (Layer S Nat)) (o : Nat) :
    Nat → List (Option A) → Option (List (Option A))
  | 0, r => some r
  | i + 1, r =>
    match el.get? i with
    | none => none
    | some node =>
      match readChildrenC o node.children r with
      | none => none
      | some read => collapseDownC g el o i (read.2.set i (some (g ⟨node.shape, read.1⟩)))

/-- Checked offset view collapse. -/
def collapse_layersC {S A : Type} (el : List (Layer S Nat)) (o : Nat)
    (g : Layer S A → A) : Option A :=
  match collapseDownC g el o el.length (List.replicate el.length none) with
  | none => none
  | some r =>
    match r.get? 0 with
    | some (some v) => some v
    | _ => none

/-!
Collapse with substructure (`CollapseWithSubStructure::collapse_layers_2`,
lines 169-217).  The scratch vector is a `Vec<Option<A>>`; reads do not take
ownership (`results[x].as_ref().unwrap()`), so a slot is never consumed, and
a read of a never-written slot or an out-of-range index is a panic, modelled
as `none`.  Each child is replaced by the pair of its computed value and a
borrowed view `RecursiveTreeRefWithOffsetAndContext` of its substructure.
-/

/-- Borrowed context-carrying view handed to the `collapse_layers_2`
reducer: the sub-slice of the store from the child on, the offset of that
child, and the results array truncated to the same point. -/
structure SubViewCtx (S A : Type) where
  elems : List (Layer S Nat)
  offset : Nat
  context : List (Option A)
deriving Repr

/-- Read one layer of children for `collapse_layers_2`: look the value up by
reference (no take) and build the substructure view; a missing or unwritten
slot is a panic (`none`). -/
def readChildren2 {S A : Type} (el : List (Layer S Nat)) (results : List (Option A)) :
    List Nat → Option (List (A × SubViewCtx S A))
  | [] => some []
  | c :: cs =>
    match results.get? c with
    | some (some v) =>
      match readChildren2 el results cs with
      | some rest => some ((v, ⟨el.drop c, c, results.drop c⟩) :: rest)
      | none => none
    | _ => none

/-- Descending scan of `collapse_layers_2`. -/
def collapseDown2 {S A : Type} (g : Layer S (A × SubViewCtx S A) → A)
    (el : List (Layer S Nat)) : Nat → List (Option A) → Option (List (Option A))
  | 0, r => some r
  | i + 1, r =>
    match el.get? i with
    | none => none
    | some node =>
      match readChildren2 el r node.children with
      | none => none
      | some pairs => collapseDown2 g el i (r.set i (some (g ⟨node.shape, pairs⟩)))

/-- `collapse_layers_2`: scan descending, then `swap_remove` slot 0 and
unwrap it (a panic, `none`, when the store is empty or slot 0 unwritten). -/
def collapse_layers_2 {S A : Type} (el : List (Layer S Nat))
    (g : Layer S (A × SubViewCtx S A) → A) : Option A :=
  match collapseDown2 g el el.length (List.replicate el.length none) with
  | none => none
  | some r =>
    match r.get? 0 with
    | some (some v) => some v
    | _ => none

/-!
Collapse with cached context (`CollapseWithContext::collapse_layers_3`,
lines 267-295) on a `RecursiveTreeRefWithOffsetAndContext` view.  Reads
translate the absolute child index by the view offset (`x - self.offset`,
with `usize` underflow, a failed `get`, or a `None` slot all panicking via
`unwrap`); the write however uses `results[idx - self.offset]` where `idx`
is already slice-relative, which underflows (panics) whenever
`idx < offset` and otherwise targets the wrong slot for a nonzero offset.
-/

/-- Read one layer of children for `collapse_layers_3`: fetch the computed
value and the externally supplied cached value from the offset-translated
slot; any failed lookup or unwrap is a panic (`none`). -/
def readChildren3 {A C : Type} (o : Nat) (results : List (Option A))
    (ctx : List (Option C)) : List Nat → Option (List (C × A))
  | [] => some []
  | c :: cs =>
    if c < o then none
    else
      match results.get? (c - o), ctx.get? (c - o) with
      | some (some v), some (some cv) =>
        match readChildren3 o results ctx cs with
        | some rest => some ((cv, v) :: rest)
        | none => none
      | _, _ => none

/-- Descending scan of `collapse_layers_3`, including the faithful write
index `idx - offset` of the source: the `usize` subtraction underflows when
`idx < offset` and the vector indexing panics when the index is out of
range, both modelled as `none`. -/
def collapseDown3 {S A C : Type} (g : Layer S (C × A) → A) (el : List (Layer S Nat))
    (o : Nat) (ctx : List (Option C)) : Nat → List (Option A) → Option (List (Option A))
  | 0, r => some r
  | i + 1, r =>
    match el.get? i with
    | none => none
    | some node =>
      match readChildren3 o r ctx node.children with
      | none => none
      | some pairs =>
        if i < o then none
        else if i - o < r.length then
          collapseDown3 g el o ctx i (r.set (i - o) (some (g ⟨node.shape, pairs⟩)))
        else none

/-- `collapse_layers_3` on a view (slice, offset, context): scan descending
and read slot 0 at the end (`unwrap` panics, `none`, when it is unwritten). -/
def collapse_layers_3 {S A C : Type} (el : List (Layer S Nat)) (o : Nat)
    (ctx : List (Option C)) (g : Layer S (C × A) → A) : Option A :=
  match collapseDown3 g el o ctx el.length (List.replicate el.length none) with
  | none => none
  | some r =>
    match r.get? 0 with
    | some (some v) => some v
    | _ => none

/-!
Head (`Head::head`, lines 42-63): return the root layer with every child
index replaced by a borrowed offset view of that child substructure.
-/

/-- Borrowed offset view (`RecursiveTreeRefWithOffset`): the sub-slice of
the store starting at the viewed node together with its arena index as the
offset. -/
structure OffsetView (S : Type) where
  elems : List (Layer S Nat)
  offset : Nat
deriving DecidableEq, Repr

/-- The `head` accessor: map over the root layer (`self.elems[0]`, a panic
on an empty store, modelled as `none`), replacing each child index `c` by
the view `(elems[c..], c)`.  No reducer is involved. -/
def head {S : Type} (el : List (Layer S Nat)) : Option (Layer S (OffsetView S)) :=
  match el with
  | [] => none
  | l :: _ => some (l.mapLayer (fun c => ⟨el.drop c, c⟩))

/-!
Character linked list example (`src/examples/linked_list.rs`).  The node
shape `CharLinkedList` is `Cons(char, A)` or `Nil`; its functor instance
maps over the single child of `Cons`.  Rust strings of characters are
modelled as `List Char`.
-/

/-- The example node shape: a linked list layer. -/
inductive CharLinkedList (A : Type) : Type where
  | cons : Char → A → CharLinkedList A
  | nil : CharLinkedList A
deriving DecidableEq, Repr

/-- The container presentation of a `CharLinkedList` layer used by the
generic engine: `cons c a` has shape `some c` and the single child `a`;
`nil` has shape `none` and no children (this is its functor instance). -/
def CharLinkedList.toLayer {A : Type} : CharLinkedList A → Layer (Option Char) A
  | .cons c a => ⟨some c, [a]⟩
  | .nil => ⟨none, []⟩

/-- Generator used by `from_str`: take the next character of the remaining
input and produce `Cons(c, rest)`, or `Nil` at end of input. -/
def fromStrGen (cs : List Char) : Layer (Option Char) (List Char) :=
  (match cs with
    | c :: it => CharLinkedList.cons c it
    | [] => CharLinkedList.nil).toLayer

/-- Modelled from the spec: `RecursiveString::unfold` of
`src/examples/linked_list.rs` is not under src/ (`RecursiveStruct`,
`CoRecursive::unfold` live in a module absent from the sources); per spec
section 4.1 and the glossary, unfold is the Expand engine, so `from_str`
expands the character sequence with the `Cons`/`Nil` generator.  The fuel
`s.length + 1` covers the `s.length + 1` iterations of the finite build. -/
def from_str (s : List Char) : Option (List (Layer (Option Char) Nat)) :=
  expand_layers fromStrGen (s.length + 1) s

/-- Reducer used by `to_str`: `Cons(c, s)` concatenates the character onto
the already-reduced tail, `Nil` is the empty string.  (The `some c, []`
branch is unreachable on stores built from the `CharLinkedList` functor,
whose `cons` layer always carries exactly one child.) -/
def toStrAlg (l : Layer (Option Char) (List Char)) : List Char :=
  match l.shape, l.children with
  | some c, v :: _ => c :: v
  | some c, [] => [c]
  | none, _ => []

/-- Modelled from the spec: `Recursive::fold` of the linked list example is
not under src/; per spec section 4.3 and the glossary, fold is the basic
owning Collapse, so `to_str` collapses with the string-concatenation
reducer.  `junk` is the content of uninitialised scratch slots. -/
def to_str (junk : List Char) (st : List (Layer (Option Char) Nat)) : List Char :=
  collapse_layers junk st toStrAlg

/-- The store that expanding a character sequence produces: a chain of
`cons` layers each pointing at the next position, closed by a `nil` layer;
`base` is the arena index of the first element. -/
def chainStore (base : Nat) : List Char → List (Layer (Option Char) Nat)
  | [] => [⟨none, []⟩]
  | c :: cs => ⟨some c, [base + 1]⟩ :: chainStore (base + 1) cs

/-- The tree denoted by a chain store. -/
def chainTree : List Char → RTree (Option Char)
  | [] => .node none []
  | c :: cs => .node (some c) [chainTree cs]

/-!
File tree example (`examples/filetree/mod.rs`).  The node shape is
`File(Metadata)` or `Dir(HashMap<OsString, A>)`; its `MapLayer` maps over
the directory entries.  The metadata (and entry names) are non-child data
collected in the shape; the child order of a `HashMap` is arbitrary but
fixed per store, which the list of children captures.
-/

/-- Shape of one file tree layer: a file with its metadata, or a directory
(whose children are the layer children). -/
inductive FTShape (M : Type) : Type where
  | file : M → FTShape M
  | dir : FTShape M
deriving DecidableEq, Repr

/-- The depth reducer of `examples/filetree/mod.rs` (function `depth`): a
directory maps to the maximum of its children with default 0, plus 1; a
file maps to 1. -/
def depthAlg {M : Type} (l : Layer (FTShape M) Nat) : Nat :=
  match l.shape with
  | FTShape.dir => (l.children.foldr max 0) + 1
  | FTShape.file _ => 1

/-- The `depth` utility: `tree.as_ref().collapse_layers(..)`, i.e. the
borrowing collapse, which delegates to the offset view collapse with
offset 0 (lines 219-230 of arena_eval.rs). -/
def depth {M : Type} (junk : Nat) (el : List (Layer (FTShape M) Nat)) : Nat :=
  collapse_layers_off junk el 0 depthAlg

/-- Number of nodes on the longest root-to-leaf path of a tree (1 for a
childless root). -/
def maxPathNodes {S : Type} : RTree S → Nat
  | .node _ ts => 1 + (ts.attach.map (fun x => maxPathNodes x.1)).foldr max 0
termination_by t => sizeOf t
decreasing_by
  have := List.sizeOf_lt_of_mem x.2
  simp only [RTree.node.sizeOf_spec]
  omega

/-- A denoted file tree is shape-valid when every `file` node is a leaf
(true of every tree the `FileTree` functor can produce, since `File`
layers have no child positions). -/
inductive LeafOnlyFiles {M : Type} : RTree (FTShape M) → Prop where
  | node (s : FTShape M) (ts : List (RTree (FTShape M)))
      (hfile : ∀ m, s = FTShape.file m → ts = [])
      (hts : ∀ t ∈ ts, LeafOnlyFiles t) : LeafOnlyFiles (.node s ts)

/-- The store invariant: every element only references strictly larger
arena indices. -/
def topoInv {S : Type} (el : List (Layer S Nat)) : Prop :=
  ∀ i l, el.get? i = some l → ∀ c ∈ l.children, i < c

/-- The arena (view) invariant of a store seen through offset `o`: every
element at slice position `i` references only absolute arena indices
strictly above `o + i` and below `o + length`. -/
def boundInv {S : Type} (el : List (Layer S Nat)) (o : Nat) : Prop :=
  ∀ i l, el.get? i = some l → ∀ c ∈ l.children, o + i < c ∧ c < o + el.length

/-- Uniqueness half of the arena invariant: every slice position other than
the root is referenced exactly once. -/
def uniqueRef {S : Type} (el : List (Layer S Nat)) (o : Nat) : Prop :=
  ∀ j, j < el.length → 1 ≤ j → (allChildren el).count (o + j) = 1

/-- Value a finished fold leaves in scratch slot `j`: the fold of the
subtree denoted at slice position `j`. -/
def slotVal {S A : Type} (el : List (Layer S Nat)) (o : Nat) (g : Layer S A → A)
    (j : Nat) : Option A :=
  (denoteV el o (el.length - j) j).map (RTree.fold g)

/-- Loop invariant of the checked descending scan at counter `i` (elements
at positions `i` and above already processed): slot `j` holds the fold
value of its subtree when element `j` has been processed and not yet
consumed by its unique parent (no reference to `o + j` remains in the
processed suffix `el.drop i`), and is empty otherwise. -/
def stateInv {S A : Type} (el : List (Layer S Nat)) (o : Nat) (g : Layer S A → A)
    (i : Nat) (r : List (Option A)) : Prop :=
  r.length = el.length ∧ ∀ j, j < el.length →
    r.get? j = some (if i ≤ j ∧ ((el.drop i).flatMap Layer.children).count (o + j) = 0
      then slotVal el o g j else none)

/-- Relation between a checked scratch array and an unchecked one: written,
unconsumed slots agree. -/
def slotRel {A : Type} (rc : List (Option A)) (ru : List A) : Prop :=
  rc.length = ru.length ∧ ∀ j v, rc.get? j = some (some v) → ru.get? j = some v

/-- Generator used to witness the asynchronous short-circuit: seed 0 has
children 1 and 2, seed 1 is a leaf, seed 2 fails. -/
def gBoom : Nat → Except String (Layer Unit Nat) := fun n =>
  if n = 0 then Except.ok ⟨(), [1, 2]⟩
  else if n = 1 then Except.ok ⟨(), []⟩
  else Except.error "boom"


/-!
Basic equation lemmas for the two nested-recursion definitions.
-/

namespace RTree

theorem fold_node {S A : Type} (g : Layer S A → A) (s : S) (ts : List (RTree S)) :
    fold g (.node s ts) = g ⟨s, ts.map (fold g)⟩ := by
  rw [fold]
  congr 1
  simp only [Layer.mk.injEq, true_and]
  rw [← List.attach_map_coe ts (fold g)]

end RTree

theorem maxPathNodes_node {S : Type} (s : S) (ts : List (RTree S)) :
    maxPathNodes (.node s ts) = 1 + (ts.map maxPathNodes).foldr max 0 := by
  rw [maxPathNodes]
  rw [← List.attach_map_coe ts maxPathNodes]

/-!
Topological invariant of expanded stores (claim C1).
-/

theorem pushChildren_lb {A : Type} (L : Nat) :
    ∀ (cs fr : List A), ∀ x ∈ (pushChildren L fr cs).2, L + fr.length < x := by
  intro cs
  induction cs with
  | nil => intro fr x hx; simp [pushChildren] at hx
  | cons c cs ih =>
    intro fr x hx
    simp only [pushChildren, List.mem_cons] at hx
    rcases hx with rfl | hx
    · simp only [List.length_append, List.length_cons, List.length_nil]
      omega
    · have := ih (fr ++ [c]) x hx
      simp at this
      omega

theorem pushChildren_fst {A : Type} (L : Nat) :
    ∀ (cs fr : List A), (pushChildren L fr cs).1 = fr ++ cs := by
  intro cs
  induction cs with
  | nil => intro fr; simp [pushChildren]
  | cons c cs ih => intro fr; simp [pushChildren, ih]

theorem topoInv_append {S : Type} (el : List (Layer S Nat)) (s : S) (cs : List Nat)
    (h : topoInv el) (hcs : ∀ c ∈ cs, el.length < c) :
    topoInv (el ++ [⟨s, cs⟩]) := by
  intro i l hl c hc
  rcases lt_trichotomy i el.length with hi | hi | hi
  · rw [List.get?_append hi] at hl
    exact h i l hl c hc
  · subst hi
    rw [List.get?_concat_length] at hl
    cases hl
    exact hcs c hc
  · rw [List.get?_eq_none.2 (by simp; omega)] at hl
    cases hl

theorem expandLoop_topoInv {S A : Type} (f : A → Layer S A) :
    ∀ (fuel : Nat) (fr : List A) (el : List (Layer S Nat)),
      topoInv el → ∀ st, expandLoop f fuel fr el = some st → topoInv st := by
  intro fuel
  induction fuel with
  | zero =>
    intro fr el hel st hst
    cases fr with
    | nil => simp [expandLoop] at hst; subst hst; exact hel
    | cons a fr => simp [expandLoop] at hst
  | succ fuel ih =>
    intro fr el hel st hst
    cases fr with
    | nil => simp [expandLoop] at hst; subst hst; exact hel
    | cons a fr =>
      simp only [expandLoop] at hst
      refine ih _ _ ?_ st hst
      refine topoInv_append _ _ _ hel ?_
      intro c hc
      have := pushChildren_lb el.length (f a).children fr c hc
      omega

theorem expandAsyncLoop_topoInv {S A E : Type} (g : A → Except E (Layer S A)) :
    ∀ (fuel : Nat) (fr : List A) (el : List (Layer S Nat)),
      topoInv el → ∀ st, expandAsyncLoop g fuel fr el = some (Except.ok st) →
        topoInv st := by
  intro fuel
  induction fuel with
  | zero =>
    intro fr el hel st hst
    cases fr with
    | nil => simp [expandAsyncLoop] at hst; subst hst; exact hel
    | cons a fr => simp [expandAsyncLoop] at hst
  | succ fuel ih =>
    intro fr el hel st hst
    cases fr with
    | nil => simp [expandAsyncLoop] at hst; subst hst; exact hel
    | cons a fr =>
      simp only [expandAsyncLoop] at hst
      cases hg : g a with
      | error e => rw [hg] at hst; simp at hst
      | ok layer =>
        rw [hg] at hst
        refine ih _ _ ?_ st hst
        refine topoInv_append _ _ _ hel ?_
        intro c hc
        have := pushChildren_lb el.length layer.children fr c hc
        omega

/-- C1: every store produced by the synchronous expand or by a successful
asynchronous expand satisfies the index invariant: an element at position
`i` references only child arena indices `c` with `c > i`, and index 0 is
never referenced as a child. -/
theorem expand_topo_invariant {S A E : Type} (f : A → Layer S A)
    (g : A → Except E (Layer S A)) (fuel : Nat) (a : A)
    (st st' : List (Layer S Nat)) :
    (expand_layers f fuel a = some st →
      ∀ i l, st.get? i = some l → ∀ c ∈ l.children, i < c ∧ c ≠ 0) ∧
    (expand_layers_async g fuel a = some (Except.ok st') →
      ∀ i l, st'.get? i = some l → ∀ c ∈ l.children, i < c ∧ c ≠ 0) := by
  constructor
  · intro hst i l hl c hc
    have hinv : topoInv st := by
      refine expandLoop_topoInv f fuel [a] [] ?_ st hst
      intro i l hl; simp at hl
    have := hinv i l hl c hc
    omega
  · intro hst i l hl c hc
    have hinv : topoInv st' := by
      refine expandAsyncLoop_topoInv g fuel [a] [] ?_ st' hst
      intro i l hl; simp at hl
    have := hinv i l hl c hc
    omega

/-!
Async short-circuit (claim C6).
-/


theorem expandAsyncLoopTr_spec {S A E : Type} (g : A → Except E (Layer S A)) :
    ∀ (fuel : Nat) (fr : List A) (el : List (Layer S Nat)),
      (expandAsyncLoopTr g fuel fr el).1 = expandAsyncLoop g fuel fr el ∧
      (∀ s ∈ ((expandAsyncLoopTr g fuel fr el).2).dropLast, ∃ l, g s = Except.ok l) ∧
      (∀ e, (expandAsyncLoopTr g fuel fr el).1 = some (Except.error e) →
        ∃ s, ((expandAsyncLoopTr g fuel fr el).2).getLast? = some s ∧
          g s = Except.error e) ∧
      (∀ s e, ((expandAsyncLoopTr g fuel fr el).2).getLast? = some s →
        g s = Except.error e →
        (expandAsyncLoopTr g fuel fr el).1 = some (Except.error e)) := by
  intro fuel
  induction fuel with
  | zero =>
    intro fr el
    cases fr with
    | nil =>
      refine ⟨rfl, ?_, ?_, ?_⟩ <;> simp [expandAsyncLoopTr]
    | cons a fr =>
      refine ⟨rfl, ?_, ?_, ?_⟩ <;> simp [expandAsyncLoopTr]
  | succ fuel ih =>
    intro fr el
    cases fr with
    | nil =>
      refine ⟨rfl, ?_, ?_, ?_⟩ <;> simp [expandAsyncLoopTr]
    | cons a fr =>
      cases hg : g a with
      | error e =>
        refine ⟨?_, ?_, ?_, ?_⟩
        · simp [expandAsyncLoopTr, expandAsyncLoop, hg]
        · simp [expandAsyncLoopTr, hg]
        · intro e' he'
          simp [expandAsyncLoopTr, hg] at he'
          exact ⟨a, by simp [expandAsyncLoopTr, hg], by rw [hg, he']⟩
        · intro s e' hs he'
          simp [expandAsyncLoopTr, hg] at hs
          subst hs
          rw [hg] at he'
          cases he'
          simp [expandAsyncLoopTr, hg]
      | ok layer =>
        have h1eq : (expandAsyncLoopTr g (fuel + 1) (a :: fr) el).1 =
            (expandAsyncLoopTr g fuel (pushChildren el.length fr layer.children).1
              (el ++ [⟨layer.shape, (pushChildren el.length fr layer.children).2⟩])).1 := by
          simp [expandAsyncLoopTr, hg]
        have h2eq : (expandAsyncLoopTr g (fuel + 1) (a :: fr) el).2 =
            a :: (expandAsyncLoopTr g fuel (pushChildren el.length fr layer.children).1
              (el ++ [⟨layer.shape, (pushChildren el.length fr layer.children).2⟩])).2 := by
          simp [expandAsyncLoopTr, hg]
        have hLeq : expandAsyncLoop g (fuel + 1) (a :: fr) el =
            expandAsyncLoop g fuel (pushChildren el.length fr layer.children).1
              (el ++ [⟨layer.shape, (pushChildren el.length fr layer.children).2⟩]) := by
          simp [expandAsyncLoop, hg]
        obtain ⟨ih1, ih2, ih3, ih4⟩ := ih (pushChildren el.length fr layer.children).1
          (el ++ [⟨layer.shape, (pushChildren el.length fr layer.children).2⟩])
        refine ⟨?_, ?_, ?_, ?_⟩
        · rw [h1eq, hLeq]
          exact ih1
        · rw [h2eq]
          intro s hs
          rcases htr : (expandAsyncLoopTr g fuel (pushChildren el.length fr layer.children).1
              (el ++ [⟨layer.shape, (pushChildren el.length fr layer.children).2⟩])).2
            with _ | ⟨b, tr⟩
          · rw [htr] at hs
            simp at hs
          · rw [htr] at hs
            simp only [List.dropLast_cons₂, List.mem_cons] at hs
            rcases hs with rfl | hs
            · exact ⟨layer, hg⟩
            · refine ih2 s ?_
              rw [htr]
              exact hs
        · rw [h1eq, h2eq]
          intro e' he'
          obtain ⟨s, hs1, hs2⟩ := ih3 e' he'
          refine ⟨s, ?_, hs2⟩
          rcases htr : (expandAsyncLoopTr g fuel (pushChildren el.length fr layer.children).1
              (el ++ [⟨layer.shape, (pushChildren el.length fr layer.children).2⟩])).2
            with _ | ⟨b, tr⟩
          · rw [htr] at hs1
            simp at hs1
          · rw [htr] at hs1 ⊢
            rw [List.getLast?_cons_cons]
            exact hs1
        · rw [h1eq, h2eq]
          intro s e' hs he'
          rcases htr : (expandAsyncLoopTr g fuel (pushChildren el.length fr layer.children).1
              (el ++ [⟨layer.shape, (pushChildren el.length fr layer.children).2⟩])).2
            with _ | ⟨b, tr⟩
          · rw [htr] at hs
            simp at hs
            subst hs
            rw [hg] at he'
            cases he'
          · rw [htr] at hs
            rw [List.getLast?_cons_cons] at hs
            refine ih4 s e' ?_ he'
            rw [htr]
            exact hs

/-- C6: in the instrumented asynchronous expansion (whose result component
coincides with `expand_layers_async`), every generator invocation except
possibly the last one succeeded, a resolved failure is exactly the error of
the last invoked generation step, and a failing last step forces the whole
build to resolve to that error.  Together: the first failing generation
step short-circuits the build with its error, no seed past it is ever
generated, and the error result carries no store, so no partial prefix can
be returned. -/
theorem expand_async_short_circuit {S A E : Type} (g : A → Except E (Layer S A))
    (fuel : Nat) (a : A) :
    (expandAsyncLoopTr g fuel [a] []).1 =
        expand_layers_async (S := S) g fuel a ∧
    (∀ s ∈ ((expandAsyncLoopTr g fuel [a] ([] : List (Layer S Nat))).2).dropLast,
      ∃ l, g s = Except.ok l) ∧
    (∀ e, expand_layers_async (S := S) g fuel a = some (Except.error e) →
      ∃ s, ((expandAsyncLoopTr g fuel [a] ([] : List (Layer S Nat))).2).getLast? = some s ∧
        g s = Except.error e) ∧
    (∀ s e, ((expandAsyncLoopTr g fuel [a] ([] : List (Layer S Nat))).2).getLast? = some s →
      g s = Except.error e →
      expand_layers_async (S := S) g fuel a = some (Except.error e)) := by
  obtain ⟨h1, h2, h3, h4⟩ := expandAsyncLoopTr_spec g fuel [a] ([] : List (Layer S Nat))
  refine ⟨h1, h2, ?_, ?_⟩
  · intro e he
    refine h3 e ?_
    rw [h1]
    exact he
  · intro s e hs hg
    have := h4 s e hs hg
    show expandAsyncLoop g fuel [a] [] = some (Except.error e)
    rw [← h1]
    exact this

/-!
Supporting lemmas for the collapse correctness argument (claims C2, C4, C9,
C10): behaviour of `optMapM` and fuel monotonicity of the denotation.
-/

theorem optMapM_map_of_some {α β : Type} (f : α → Option β) (h : α → β) :
    ∀ as : List α, (∀ a ∈ as, f a = some (h a)) →
      optMapM f as = some (as.map h) := by
  intro as
  induction as with
  | nil => intro; rfl
  | cons a as ih =>
    intro hall
    have ha := hall a (by simp)
    simp only [optMapM, ha]
    rw [ih (fun a' ha' => hall a' (by simp [ha']))]
    simp

theorem optMapM_congr_some {α β : Type} (f f₂ : α → Option β)
    (hmono : ∀ a b, f a = some b → f₂ a = some b) :
    ∀ (as : List α) (bs : List β), optMapM f as = some bs → optMapM f₂ as = some bs := by
  intro as
  induction as with
  | nil => intro bs h; exact h
  | cons a as ih =>
    intro bs h
    simp only [optMapM] at h ⊢
    cases hfa : f a with
    | none => rw [hfa] at h; cases h
    | some b =>
      rw [hfa] at h
      rw [hmono a b hfa]
      cases hrest : optMapM f as with
      | none => rw [hrest] at h; cases h
      | some bs' =>
        rw [hrest] at h
        rw [ih bs' hrest]
        exact h

theorem optMapM_isSome_of {α β : Type} (f : α → Option β) :
    ∀ as : List α, (∀ a ∈ as, (f a).isSome) → (optMapM f as).isSome := by
  intro as
  induction as with
  | nil => intro; simp [optMapM]
  | cons a as ih =>
    intro hall
    have ha := hall a (by simp)
    simp only [optMapM]
    cases hfa : f a with
    | none => rw [hfa] at ha; cases ha
    | some b =>
      have hrest := ih (fun a' ha' => hall a' (by simp [ha']))
      cases hr : optMapM f as with
      | none => rw [hr] at hrest; cases hrest
      | some bs => simp

theorem denoteV_mono {S : Type} (el : List (Layer S Nat)) (o : Nat) :
    ∀ (fuel fuel' i : Nat) (t : RTree S), denoteV el o fuel i = some t →
      fuel ≤ fuel' → denoteV el o fuel' i = some t := by
  intro fuel
  induction fuel with
  | zero => intro fuel' i t h; cases h
  | succ fuel ih =>
    intro fuel' i t h hle
    cases fuel' with
    | zero => omega
    | succ fuel' =>
      cases hel : el.get? i with
      | none =>
        simp only [denoteV, hel] at h
        exact Option.noConfusion h
      | some l =>
        simp only [denoteV, hel] at h ⊢
        cases hmm : optMapM (fun c => denoteV el o fuel (c - o)) l.children with
        | none => rw [hmm] at h; cases h
        | some ts =>
          rw [hmm] at h
          have hcg := optMapM_congr_some (fun c => denoteV el o fuel (c - o))
            (fun c => denoteV el o fuel' (c - o))
            (fun c tc hc => ih fuel' (c - o) tc hc (by omega)) l.children ts hmm
          rw [hcg]
          exact h

theorem denoteV_isSome {S : Type} (el : List (Layer S Nat)) (o : Nat)
    (hb : boundInv el o) :
    ∀ (fuel i : Nat), i < el.length → el.length - i ≤ fuel →
      (denoteV el o fuel i).isSome := by
  intro fuel
  induction fuel with
  | zero => intro i hi hf; omega
  | succ fuel ih =>
    intro i hi hf
    have hel : ∃ l, el.get? i = some l := by
      rw [← Option.isSome_iff_exists]
      simp [List.get?_eq_getElem?, List.getElem?_eq_getElem hi]
    obtain ⟨l, hel⟩ := hel
    simp only [denoteV, hel]
    have hmm : (optMapM (fun c => denoteV el o fuel (c - o)) l.children).isSome := by
      refine optMapM_isSome_of _ _ ?_
      intro c hc
      obtain ⟨h1, h2⟩ := hb i l hel c hc
      exact ih (c - o) (by omega) (by omega)
    cases hr : optMapM (fun c => denoteV el o fuel (c - o)) l.children with
    | none => rw [hr] at hmm; cases hmm
    | some ts => simp

theorem get?_replicate_lt {A : Type} (x : A) {n j : Nat} (h : j < n) :
    (List.replicate n x).get? j = some x := by
  simp [List.get?_eq_getElem?, List.getElem?_replicate, h]

theorem count_allChildren_split {S : Type} (el : List (Layer S Nat)) (i x : Nat) :
    (allChildren el).count x =
      ((el.take i).flatMap Layer.children).count x +
      ((el.drop i).flatMap Layer.children).count x := by
  conv_lhs => rw [allChildren, ← List.take_append_drop i el]
  rw [List.flatMap_append, List.count_append]

theorem count_drop_succ {S : Type} (el : List (Layer S Nat)) (i : Nat)
    (node : Layer S Nat) (hel : el.get? i = some node) (x : Nat) :
    ((el.drop i).flatMap Layer.children).count x =
      node.children.count x + ((el.drop (i + 1)).flatMap Layer.children).count x := by
  obtain ⟨hi, hget⟩ := List.get?_eq_some.1 hel
  rw [List.drop_eq_get_cons hi, hget, List.flatMap_cons, List.count_append]

theorem mem_allChildren_drop {S : Type} (el : List (Layer S Nat)) (i x : Nat)
    (hx : x ∈ (el.drop i).flatMap Layer.children) :
    ∃ k l, el.get? (i + k) = some l ∧ x ∈ l.children := by
  obtain ⟨lay, hlay, hxl⟩ := List.mem_flatMap.1 hx
  obtain ⟨⟨k, hk⟩, hget⟩ := List.mem_iff_get.1 hlay
  refine ⟨k, lay, ?_, hxl⟩
  have := List.get?_drop el i k
  rw [List.get?_eq_get hk, hget] at this
  exact this.symm

theorem readChildrenC_spec {A : Type} (o : Nat) (W : Nat → A) :
    ∀ (cs : List Nat) (r : List (Option A)),
      cs.Nodup →
      (∀ c ∈ cs, o ≤ c ∧ r.get? (c - o) = some (some (W (c - o)))) →
      ∃ r', readChildrenC o cs r = some (cs.map (fun c => W (c - o)), r') ∧
        r'.length = r.length ∧
        (∀ j, (∃ c ∈ cs, c - o = j) → r'.get? j = some none) ∧
        (∀ j, (¬ ∃ c ∈ cs, c - o = j) → r'.get? j = r.get? j) := by
  intro cs
  induction cs with
  | nil =>
    intro r _ _
    refine ⟨r, rfl, rfl, ?_, ?_⟩
    · intro j hj; simp at hj
    · intro j _; rfl
  | cons c cs ih =>
    intro r hnd hall
    obtain ⟨hoc, hrc⟩ := hall c (by simp)
    have hclen : c - o < r.length := (List.get?_eq_some.1 hrc).1
    have hcs : ∀ c' ∈ cs, o ≤ c' ∧
        (r.set (c - o) none).get? (c' - o) = some (some (W (c' - o))) := by
      intro c' hc'
      obtain ⟨hoc', hrc'⟩ := hall c' (by simp [hc'])
      have hne : c' ≠ c := by
        rintro rfl
        exact (List.nodup_cons.1 hnd).1 hc'
      refine ⟨hoc', ?_⟩
      rw [List.get?_set_ne _ _ (by omega)]
      exact hrc'
    obtain ⟨r', heq, hlen, hcons, hunt⟩ :=
      ih (r.set (c - o) none) (List.nodup_cons.1 hnd).2 hcs
    refine ⟨r', ?_, ?_, ?_, ?_⟩
    · simp only [readChildrenC, if_neg (by omega : ¬ c < o), hrc, heq, List.map_cons]
    · rw [hlen, List.length_set]
    · intro j hj
      obtain ⟨c'', hc'', hco⟩ := hj
      rcases List.mem_cons.1 hc'' with rfl | hmem
      · by_cases hin : ∃ c' ∈ cs, c' - o = j
        · exact hcons j hin
        · rw [hunt j hin, ← hco, List.get?_set_eq_of_lt _ hclen]
      · exact hcons j ⟨c'', hmem, hco⟩
    · intro j hj
      have hjcs : ¬ ∃ c' ∈ cs, c' - o = j := by
        rintro ⟨c', hc', rfl⟩
        exact hj ⟨c', by simp [hc'], rfl⟩
      have hjc : c - o ≠ j := by
        rintro rfl
        exact hj ⟨c, by simp, rfl⟩
      rw [hunt j hjcs, List.get?_set_ne _ _ hjc]

theorem collapseDownC_step {S A : Type} (el : List (Layer S Nat)) (o : Nat)
    (g : Layer S A → A) (hb : boundInv el o) (hu : uniqueRef el o)
    (i : Nat) (hi : i < el.length) (r : List (Option A))
    (hinv : stateInv el o g (i + 1) r) :
    ∃ r₂, collapseDownC g el o (i + 1) r = collapseDownC g el o i r₂ ∧
      stateInv el o g i r₂ := by
  obtain ⟨hlen, hslots⟩ := hinv
  have helx : ∃ node, el.get? i = some node := by
    rw [← Option.isSome_iff_exists]
    simp [List.get?_eq_getElem?, List.getElem?_eq_getElem hi]
  obtain ⟨node, hel⟩ := helx
  have hbc : ∀ c ∈ node.children, o + i < c ∧ c < o + el.length := hb i node hel
  have hcount : ∀ c ∈ node.children, node.children.count c = 1 ∧
      ((el.drop (i + 1)).flatMap Layer.children).count c = 0 ∧
      ((el.take i).flatMap Layer.children).count c = 0 := by
    intro c hc
    obtain ⟨h1, h2⟩ := hbc c hc
    have hcall : (allChildren el).count c = 1 := by
      have := hu (c - o) (by omega) (by omega)
      rwa [Nat.add_sub_cancel' (by omega)] at this
    have hsplit := count_allChildren_split el i c
    have hdrop := count_drop_succ el i node hel c
    have hmem : 0 < node.children.count c := List.count_pos_iff_mem.2 hc
    omega
  have hnd : node.children.Nodup := by
    rw [List.nodup_iff_count_le_one]
    intro a
    by_cases ha : a ∈ node.children
    · exact (hcount a ha).1.le
    · rw [List.count_eq_zero.2 ha]
      omega
  have hread : ∀ c ∈ node.children, o ≤ c ∧ r.get? (c - o) =
      some (some (((denoteV el o (el.length - (c - o)) (c - o)).map
        (RTree.fold g)).getD (g ⟨node.shape, []⟩))) := by
    intro c hc
    obtain ⟨h1, h2⟩ := hbc c hc
    refine ⟨by omega, ?_⟩
    have hcond : ((el.drop (i + 1)).flatMap Layer.children).count (o + (c - o)) = 0 := by
      rw [Nat.add_sub_cancel' (by omega)]
      exact (hcount c hc).2.1
    have hslot := hslots (c - o) (by omega)
    rw [if_pos ⟨by omega, hcond⟩] at hslot
    obtain ⟨t, ht⟩ := Option.isSome_iff_exists.1
      (denoteV_isSome el o hb (el.length - (c - o)) (c - o) (by omega) (le_refl _))
    rw [hslot, slotVal, ht]
    simp
  obtain ⟨r', heq, hlen', hcons, hunt⟩ :=
    readChildrenC_spec o (fun j => ((denoteV el o (el.length - j) j).map
      (RTree.fold g)).getD (g ⟨node.shape, []⟩)) node.children r hnd hread
  have hval : (some (g ⟨node.shape, node.children.map
      (fun c => ((denoteV el o (el.length - (c - o)) (c - o)).map
        (RTree.fold g)).getD (g ⟨node.shape, []⟩))⟩) : Option A) =
      slotVal el o g i := by
    have hden : ∀ c ∈ node.children, denoteV el o (el.length - i - 1) (c - o) =
        some ((denoteV el o (el.length - i - 1) (c - o)).getD
          (RTree.node node.shape [])) := by
      intro c hc
      obtain ⟨h1, h2⟩ := hbc c hc
      obtain ⟨t, ht⟩ := Option.isSome_iff_exists.1
        (denoteV_isSome el o hb (el.length - (c - o)) (c - o) (by omega) (le_refl _))
      have hmn := denoteV_mono el o _ (el.length - i - 1) _ t ht (by omega)
      rw [hmn]
      simp [hmn]
    have hdeq : denoteV el o ((el.length - i - 1) + 1) i =
        some (RTree.node node.shape (node.children.map (fun c =>
          (denoteV el o (el.length - i - 1) (c - o)).getD
            (RTree.node node.shape [])))) := by
      simp only [denoteV, hel, optMapM_map_of_some _ _ node.children hden]
    have hfe : el.length - i = (el.length - i - 1) + 1 := by omega
    rw [slotVal, hfe, hdeq, Option.map_some']
    rw [RTree.fold_node]
    refine congrArg some (congrArg g (congrArg (Layer.mk node.shape) ?_))
    rw [List.map_map]
    refine List.map_congr_left ?_
    intro c hc
    obtain ⟨h1, h2⟩ := hbc c hc
    obtain ⟨t, ht⟩ := Option.isSome_iff_exists.1
      (denoteV_isSome el o hb (el.length - (c - o)) (c - o) (by omega) (le_refl _))
    have hmono := denoteV_mono el o _ (el.length - i - 1) _ t ht (by omega)
    simp only [Function.comp]
    rw [hmono, ht]
    simp
  refine ⟨r'.set i (some (g ⟨node.shape, node.children.map
    (fun c => ((denoteV el o (el.length - (c - o)) (c - o)).map
      (RTree.fold g)).getD (g ⟨node.shape, []⟩))⟩)), ?_, ?_, ?_⟩
  · simp only [collapseDownC, hel, heq]
  · rw [List.length_set, hlen', hlen]
  · intro j hj
    by_cases hji : j = i
    · subst hji
      rw [List.get?_set_eq_of_lt _ (by omega)]
      have hnoref : ((el.drop j).flatMap Layer.children).count (o + j) = 0 := by
        rw [List.count_eq_zero]
        intro hmem
        obtain ⟨k, l, hget, hcm⟩ := mem_allChildren_drop el j (o + j) hmem
        have := (hb (j + k) l hget (o + j) hcm).1
        omega
      rw [if_pos ⟨le_refl j, hnoref⟩]
      rw [← hval]
    · rw [List.get?_set_ne _ _ (by omega)]
      by_cases hjc : ∃ c ∈ node.children, c - o = j
      · rw [hcons j hjc]
        obtain ⟨c, hc, hco⟩ := hjc
        have hoc : o ≤ c := by
          have := (hbc c hc).1
          omega
        have hcj : c = o + j := by omega
        have hpos : 0 < node.children.count (o + j) := by
          rw [← hcj]
          exact List.count_pos_iff_mem.2 hc
        have hcnt := count_drop_succ el i node hel (o + j)
        rw [if_neg ?_]
        rintro ⟨_, h0⟩
        omega
      · rw [hunt j hjc, hslots j hj]
        have hzero : node.children.count (o + j) = 0 := by
          rw [List.count_eq_zero]
          intro hmem
          refine hjc ⟨o + j, hmem, by omega⟩
        have hcnt := count_drop_succ el i node hel (o + j)
        have hiff : (i + 1 ≤ j ∧
            ((el.drop (i + 1)).flatMap Layer.children).count (o + j) = 0) ↔
            (i ≤ j ∧ ((el.drop i).flatMap Layer.children).count (o + j) = 0) := by
          omega
        rw [if_congr hiff rfl rfl]

theorem collapseDownC_run {S A : Type} (el : List (Layer S Nat)) (o : Nat)
    (g : Layer S A → A) (hb : boundInv el o) (hu : uniqueRef el o) :
    ∀ i, i ≤ el.length → ∀ r, stateInv el o g i r →
      ∃ r', collapseDownC g el o i r = some r' ∧ stateInv el o g 0 r' := by
  intro i
  induction i with
  | zero => intro _ r hr; exact ⟨r, rfl, hr⟩
  | succ i ih =>
    intro hle r hr
    obtain ⟨r₂, heq, hinv₂⟩ := collapseDownC_step el o g hb hu i (by omega) r hr
    obtain ⟨r', heq', hinv'⟩ := ih (by omega) r₂ hinv₂
    exact ⟨r', by rw [heq, heq'], hinv'⟩

/-- Master correctness of the checked offset collapse: on a view satisfying
the arena invariant, the descending write-once read-once scan completes
without touching an unwritten slot and returns the bottom-up fold of the
denoted tree. -/
theorem collapse_layersC_fold {S A : Type} (el : List (Layer S Nat)) (o : Nat)
    (g : Layer S A → A) (t : RTree S) (hb : boundInv el o) (hu : uniqueRef el o)
    (h0 : 0 < el.length) (hden : denoteV el o el.length 0 = some t) :
    collapse_layersC el o g = some (RTree.fold g t) := by
  have hinit : stateInv el o g el.length (List.replicate el.length none) := by
    refine ⟨by simp, ?_⟩
    intro j hj
    rw [get?_replicate_lt _ hj, if_neg (by omega)]
  obtain ⟨r', hrun, hlen', hslots'⟩ :=
    collapseDownC_run el o g hb hu el.length (le_refl _) _ hinit
  have h0ref : ((el.drop 0).flatMap Layer.children).count (o + 0) = 0 := by
    rw [List.count_eq_zero]
    intro hmem
    obtain ⟨k, l, hget, hcm⟩ := mem_allChildren_drop el 0 (o + 0) hmem
    have := (hb (0 + k) l hget (o + 0) hcm).1
    omega
  have hslot0 := hslots' 0 h0
  rw [if_pos ⟨le_refl 0, h0ref⟩] at hslot0
  have hsv : slotVal el o g 0 = some (RTree.fold g t) := by
    rw [slotVal, Nat.sub_zero, hden]
    rfl
  rw [hsv] at hslot0
  simp only [collapse_layersC, hrun, hslot0]

/-!
Transfer from the checked instrumentation to the unchecked (junk slot)
implementations: whenever the checked scan succeeds, the unsafe scan reads
exactly the same values, so its result does not depend on the content of
uninitialised slots.
-/

theorem readChildren_transfer {A : Type} (junk : A) (o : Nat) :
    ∀ (cs : List Nat) (rc : List (Option A)) (ru : List A) (vs : List A)
      (rc' : List (Option A)), readChildrenC o cs rc = some (vs, rc') →
      slotRel rc ru →
      (readChildrenU junk o cs ru).1 = vs ∧
      slotRel rc' (readChildrenU junk o cs ru).2 := by
  intro cs
  induction cs with
  | nil =>
    intro rc ru vs rc' hC hrel
    simp only [readChildrenC] at hC
    cases hC
    exact ⟨rfl, hrel⟩
  | cons c cs ih =>
    intro rc ru vs rc' hC hrel
    simp only [readChildrenC] at hC
    split at hC
    · exact Option.noConfusion hC
    · split at hC
      · rename_i hco v hrc
        split at hC
        · rename_i rest hrest
          cases hC
          have hlt : c - o < rc.length := (List.get?_eq_some.1 hrc).1
          have hru : ru.get? (c - o) = some v := hrel.2 (c - o) v hrc
          have hgetD : ru.getD (c - o) junk = v := by
            have hg : ru.getD (c - o) junk = (ru.get? (c - o)).getD junk := rfl
            rw [hg, hru]
            rfl
          have hrel' : slotRel (rc.set (c - o) none) (ru.set (c - o) junk) := by
            refine ⟨by rw [List.length_set, List.length_set]; exact hrel.1, ?_⟩
            intro j w hj
            by_cases hjc : j = c - o
            · subst hjc
              rw [List.get?_set_eq_of_lt _ hlt] at hj
              cases hj
            · rw [List.get?_set_ne _ _ (Ne.symm hjc)] at hj
              rw [List.get?_set_ne _ _ (Ne.symm hjc)]
              exact hrel.2 j w hj
          obtain ⟨hvs, hrel''⟩ := ih (rc.set (c - o) none) (ru.set (c - o) junk)
            rest.1 rest.2 (by rw [hrest]) hrel'
          constructor
          · simp only [readChildrenU, if_neg (by assumption : ¬ c < o), hgetD, hvs]
          · simp only [readChildrenU, if_neg (by assumption : ¬ c < o)]
            exact hrel''
        · exact Option.noConfusion hC
      · exact Option.noConfusion hC

theorem collapseDown_transfer {S A : Type} (g : Layer S A → A) (junk : A)
    (el : List (Layer S Nat)) (o : Nat) :
    ∀ (i : Nat) (rc : List (Option A)) (ru : List A) (rc' : List (Option A)),
      collapseDownC g el o i rc = some rc' → slotRel rc ru →
      slotRel rc' (collapseDownU g junk el o i ru) := by
  intro i
  induction i with
  | zero =>
    intro rc ru rc' hC hrel
    simp only [collapseDownC] at hC
    cases hC
    exact hrel
  | succ i ih =>
    intro rc ru rc' hC hrel
    simp only [collapseDownC] at hC
    split at hC
    · exact Option.noConfusion hC
    · rename_i node hel
      split at hC
      · exact Option.noConfusion hC
      · rename_i read hread
        obtain ⟨hvs, hrel'⟩ :=
          readChildren_transfer junk o node.children rc ru read.1 read.2
            (by rw [hread]) hrel
        have hrel'' : slotRel (read.2.set i (some (g ⟨node.shape, read.1⟩)))
            ((readChildrenU junk o node.children ru).2.set i
              (g ⟨node.shape, (readChildrenU junk o node.children ru).1⟩)) := by
          refine ⟨by rw [List.length_set, List.length_set]; exact hrel'.1, ?_⟩
          intro j w hj
          by_cases hji : j = i
          · subst hji
            by_cases hjlt : j < read.2.length
            · rw [List.get?_set_eq_of_lt _ hjlt] at hj
              cases hj
              rw [List.get?_set_eq_of_lt _ (by rw [← hrel'.1]; exact hjlt), hvs]
            · rw [List.get?_eq_none.2 (by rw [List.length_set]; omega)] at hj
              cases hj
          · rw [List.get?_set_ne _ _ (Ne.symm hji)] at hj
            rw [List.get?_set_ne _ _ (Ne.symm hji)]
            exact hrel'.2 j w hj
        have hfin := ih _ _ rc' hC hrel''
        have hel' : el[i]? = some node := by
          rw [← List.get?_eq_getElem?]
          exact hel
        simpa [collapseDownU, hel'] using hfin

theorem collapse_off_of_checked {S A : Type} (el : List (Layer S Nat)) (o : Nat)
    (g : Layer S A → A) (junk : A) (v : A)
    (hC : collapse_layersC el o g = some v) :
    collapse_layers_off junk el o g = v := by
  simp only [collapse_layersC] at hC
  split at hC
  · exact Option.noConfusion hC
  · rename_i rc' hdown
    split at hC
    · rename_i w hslot
      cases hC
      have hinit : slotRel (List.replicate el.length (none : Option A))
          (List.replicate el.length junk) := by
        refine ⟨by simp, ?_⟩
        intro j w' hj
        by_cases hjl : j < el.length
        · rw [get?_replicate_lt _ hjl] at hj
          cases hj
        · rw [List.get?_eq_none.2 (by simp; omega)] at hj
          cases hj
      have hrel := collapseDown_transfer g junk el o el.length _ _ rc' hdown hinit
      have hru := hrel.2 0 v hslot
      rw [collapse_layers_off]
      have hg : (collapseDownU g junk el o el.length
          (List.replicate el.length junk)).getD 0 junk =
          ((collapseDownU g junk el o el.length
            (List.replicate el.length junk)).get? 0).getD junk := rfl
      rw [hg, hru]
      rfl
    · exact Option.noConfusion hC

/-!
The owning collapse (lines 140-165) is the offset view collapse at
offset 0; similarly for the checked instrumentations.
-/

theorem readChildrenU0_eq {A : Type} (junk : A) :
    ∀ (cs : List Nat) (r : List A), readChildrenU0 junk cs r = readChildrenU junk 0 cs r := by
  intro cs
  induction cs with
  | nil => intro r; rfl
  | cons c cs ih =>
    intro r
    simp [readChildrenU0, readChildrenU, ih]

theorem collapseDownU0_eq {S A : Type} (g : Layer S A → A) (junk : A)
    (el : List (Layer S Nat)) :
    ∀ (i : Nat) (r : List A), collapseDownU0 g junk el i r = collapseDownU g junk el 0 i r := by
  intro i
  induction i with
  | zero => intro r; rfl
  | succ i ih =>
    intro r
    cases hel : el.get? i with
    | none =>
      have hel2 : el[i]? = none := by
        rw [← List.get?_eq_getElem?]
        exact hel
      simp [collapseDownU0, collapseDownU, hel, hel2]
    | some node =>
      have hel2 : el[i]? = some node := by
        rw [← List.get?_eq_getElem?]
        exact hel
      simp [collapseDownU0, collapseDownU, hel, hel2, readChildrenU0_eq, ih]

theorem collapse_layers_eq_off {S A : Type} (junk : A) (el : List (Layer S Nat))
    (g : Layer S A → A) :
    collapse_layers junk el g = collapse_layers_off junk el 0 g := by
  rw [collapse_layers, collapse_layers_off, collapseDownU0_eq]

theorem readChildrenC0_eq {A : Type} :
    ∀ (cs : List Nat) (r : List (Option A)), readChildrenC0 cs r = readChildrenC 0 cs r := by
  intro cs
  induction cs with
  | nil => intro r; rfl
  | cons c cs ih =>
    intro r
    simp only [readChildrenC0, readChildrenC, if_neg (by omega : ¬ c < 0), Nat.sub_zero]
    rw [ih]

theorem collapseDownC0_eq {S A : Type} (g : Layer S A → A) (el : List (Layer S Nat)) :
    ∀ (i : Nat) (r : List (Option A)),
      collapseDownC0 g el i r = collapseDownC g el 0 i r := by
  intro i
  induction i with
  | zero => intro r; rfl
  | succ i ih =>
    intro r
    cases hel : el.get? i with
    | none =>
      have hel2 : el[i]? = none := by
        rw [← List.get?_eq_getElem?]
        exact hel
      simp [collapseDownC0, collapseDownC, hel, hel2]
    | some node =>
      have hel2 : el[i]? = some node := by
        rw [← List.get?_eq_getElem?]
        exact hel
      simp only [collapseDownC0, collapseDownC, hel, hel2, readChildrenC0_eq]
      cases readChildrenC 0 node.children r with
      | none => rfl
      | some read => simp [ih]

theorem collapse_layersC0_eq {S A : Type} (el : List (Layer S Nat))
    (g : Layer S A → A) :
    collapse_layersC0 el g = collapse_layersC el 0 g := by
  rw [collapse_layersC0, collapse_layersC, collapseDownC0_eq]

/-- Conversion of the Fin-indexed arena invariant to the `get?` form used by
the internal lemmas. -/
theorem boundInv_of_ball {S : Type} (el : List (Layer S Nat)) (o : Nat)
    (hb : ∀ i (hi : i < el.length), ∀ c ∈ (el.get ⟨i, hi⟩).children,
      o + i < c ∧ c < o + el.length) : boundInv el o := by
  intro i l hl c hc
  obtain ⟨hi, hget⟩ := List.get?_eq_some.1 hl
  exact hb i hi c (by rw [hget]; exact hc)

/-- C2: on a store satisfying the arena invariant (children strictly above
their parent and in bounds, every non-root slot referenced exactly once),
the owning `collapse_layers` scan (descending positions, child indices
replaced by the values taken from their scratch slots, result written to
the parent slot, slot 0 returned) computes the bottom-up recursive fold of
the denoted tree, whatever value `junk` uninitialised scratch slots hold. -/
theorem collapse_layers_correct {S A : Type} (el : List (Layer S Nat))
    (g : Layer S A → A) (t : RTree S) (junk : A)
    (hb : ∀ i (hi : i < el.length), ∀ c ∈ (el.get ⟨i, hi⟩).children,
      i < c ∧ c < el.length)
    (hu : ∀ j, j < el.length → 1 ≤ j → (allChildren el).count j = 1)
    (h0 : 0 < el.length)
    (hden : denoteV el 0 el.length 0 = some t) :
    collapse_layers junk el g = RTree.fold g t := by
  have hb' : boundInv el 0 := by
    refine boundInv_of_ball el 0 ?_
    intro i hi c hc
    have := hb i hi c hc
    omega
  have hu' : uniqueRef el 0 := by
    intro j h1 h2
    have := hu j h1 h2
    simpa using this
  have hC := collapse_layersC_fold el 0 g t hb' hu' h0 hden
  rw [collapse_layers_eq_off]
  exact collapse_off_of_checked el 0 g junk _ hC

theorem collapse_layers_correct_witness :
    collapse_layers 99 ([⟨10, [1, 2]⟩, ⟨20, []⟩, ⟨30, []⟩] : List (Layer Nat Nat))
      (fun l => l.shape + l.children.foldr (· + ·) 0) =
    RTree.fold (fun l => l.shape + l.children.foldr (· + ·) 0)
      (RTree.node 10 [RTree.node 20 [], RTree.node 30 []]) :=
  collapse_layers_correct [⟨10, [1, 2]⟩, ⟨20, []⟩, ⟨30, []⟩]
    (fun l => l.shape + l.children.foldr (· + ·) 0)
    (RTree.node 10 [RTree.node 20 [], RTree.node 30 []]) 99
    (by decide) (by decide) (by decide) rfl

/-- C10: under the arena invariant, the checked instrumentations of the two
unchecked collapse scans (owning, lines 145-164, and offset view, lines
242-263) complete with a value: every take of a child scratch slot and the
final take of slot 0 hit a slot that was written exactly once and not
previously taken, so the uninitialised-read branch of the unsafe code is
unreachable. -/
theorem collapse_unchecked_reads_safe {S A S₂ A₂ : Type}
    (el₁ : List (Layer S Nat)) (g₁ : Layer S A → A)
    (el₂ : List (Layer S₂ Nat)) (o₂ : Nat) (g₂ : Layer S₂ A₂ → A₂)
    (hb₁ : ∀ i (hi : i < el₁.length), ∀ c ∈ (el₁.get ⟨i, hi⟩).children,
      i < c ∧ c < el₁.length)
    (hu₁ : ∀ j, j < el₁.length → 1 ≤ j → (allChildren el₁).count j = 1)
    (h₁ : 0 < el₁.length)
    (hb₂ : ∀ i (hi : i < el₂.length), ∀ c ∈ (el₂.get ⟨i, hi⟩).children,
      o₂ + i < c ∧ c < o₂ + el₂.length)
    (hu₂ : ∀ j, j < el₂.length → 1 ≤ j → (allChildren el₂).count (o₂ + j) = 1)
    (h₂ : 0 < el₂.length) :
    (∃ v, collapse_layersC0 el₁ g₁ = some v) ∧
    (∃ v, collapse_layersC el₂ o₂ g₂ = some v) := by
  constructor
  · have hb' : boundInv el₁ 0 := by
      refine boundInv_of_ball el₁ 0 ?_
      intro i hi c hc
      have := hb₁ i hi c hc
      omega
    have hu' : uniqueRef el₁ 0 := by
      intro j ha hb
      have := hu₁ j ha hb
      simpa using this
    obtain ⟨t, ht⟩ := Option.isSome_iff_exists.1
      (denoteV_isSome el₁ 0 hb' el₁.length 0 h₁ (by omega))
    refine ⟨RTree.fold g₁ t, ?_⟩
    rw [collapse_layersC0_eq]
    exact collapse_layersC_fold el₁ 0 g₁ t hb' hu' h₁ ht
  · have hb' : boundInv el₂ o₂ := boundInv_of_ball el₂ o₂ hb₂
    obtain ⟨t, ht⟩ := Option.isSome_iff_exists.1
      (denoteV_isSome el₂ o₂ hb' el₂.length 0 h₂ (by omega))
    exact ⟨RTree.fold g₂ t, collapse_layersC_fold el₂ o₂ g₂ t hb' hu₂ h₂ ht⟩

theorem collapse_unchecked_reads_safe_witness :
    (∃ v, collapse_layersC0 ([⟨0, [1]⟩, ⟨7, []⟩] : List (Layer Nat Nat))
      (fun l => l.shape + l.children.foldr (· + ·) 0) = some v) ∧
    (∃ v, collapse_layersC ([⟨0, [6]⟩, ⟨7, []⟩] : List (Layer Nat Nat)) 5
      (fun l => l.shape + l.children.foldr (· + ·) 0) = some v) :=
  collapse_unchecked_reads_safe [⟨0, [1]⟩, ⟨7, []⟩]
    (fun l => l.shape + l.children.foldr (· + ·) 0)
    [⟨0, [6]⟩, ⟨7, []⟩] 5 (fun l => l.shape + l.children.foldr (· + ·) 0)
    (by decide) (by decide) (by decide) (by decide) (by decide) (by decide)

/-- Packaged correctness of the owning collapse against the denotation,
used by the example drivers. -/
theorem collapse_layers_fold_of_inv {S A : Type} (el : List (Layer S Nat))
    (g : Layer S A → A) (t : RTree S) (junk : A) (hb : boundInv el 0)
    (hu : uniqueRef el 0) (h0 : 0 < el.length)
    (hden : denoteV el 0 el.length 0 = some t) :
    collapse_layers junk el g = RTree.fold g t := by
  rw [collapse_layers_eq_off]
  exact collapse_off_of_checked el 0 g junk _
    (collapse_layersC_fold el 0 g t hb hu h0 hden)

/-!
Round trip of the character list example (claims C4 and C5).
-/

theorem chainStore_length (s : List Char) : ∀ b : Nat,
    (chainStore b s).length = s.length + 1 := by
  induction s with
  | nil => intro b; rfl
  | cons c cs ih => intro b; simp [chainStore, ih]

theorem expandLoop_chain : ∀ (s : List Char) (els : List (Layer (Option Char) Nat)),
    expandLoop fromStrGen (s.length + 1) [s] els =
      some (els ++ chainStore els.length s) := by
  intro s
  induction s with
  | nil =>
    intro els
    simp [expandLoop, fromStrGen, CharLinkedList.toLayer, pushChildren, chainStore]
  | cons c cs ih =>
    intro els
    have hstep : expandLoop fromStrGen (cs.length + 1 + 1) [c :: cs] els =
        expandLoop fromStrGen (cs.length + 1) [cs]
          (els ++ [⟨some c, [els.length + 1]⟩]) := by
      simp [expandLoop, fromStrGen, CharLinkedList.toLayer, pushChildren]
    simp only [List.length_cons]
    rw [hstep, ih]
    simp [chainStore]

theorem from_str_eq (s : List Char) : from_str s = some (chainStore 0 s) := by
  have := expandLoop_chain s []
  simpa [from_str, expand_layers] using this

theorem chainStore_get?_lt : ∀ (s : List Char) (b i : Nat) (h : i < s.length),
    (chainStore b s).get? i = some ⟨some (s.get ⟨i, h⟩), [b + i + 1]⟩ := by
  intro s
  induction s with
  | nil => intro b i h; simp at h
  | cons c cs ih =>
    intro b i h
    cases i with
    | zero => rfl
    | succ i =>
      have := ih (b + 1) i (by simpa using h)
      simp only [chainStore, List.get?_cons_succ]
      rw [this]
      have harith : b + 1 + i + 1 = b + (i + 1) + 1 := by omega
      rw [harith]
      rfl

theorem chainStore_get?_len : ∀ (s : List Char) (b : Nat),
    (chainStore b s).get? s.length = some ⟨none, []⟩ := by
  intro s
  induction s with
  | nil => intro b; rfl
  | cons c cs ih => intro b; simpa [chainStore] using ih (b + 1)

theorem chain_bound (s : List Char) : boundInv (chainStore 0 s) 0 := by
  intro i l hl c hc
  rw [chainStore_length]
  rcases lt_trichotomy i s.length with hi | hi | hi
  · rw [chainStore_get?_lt s 0 i hi] at hl
    cases hl
    simp at hc
    omega
  · subst hi
    rw [chainStore_get?_len] at hl
    cases hl
    simp at hc
  · rw [List.get?_eq_none.2 (by rw [chainStore_length]; omega)] at hl
    cases hl

theorem chain_count : ∀ (s : List Char) (b x : Nat),
    (allChildren (chainStore b s)).count x =
      if b + 1 ≤ x ∧ x ≤ b + s.length then 1 else 0 := by
  intro s
  induction s with
  | nil =>
    intro b x
    simp only [List.length_nil]
    rw [if_neg (by omega)]
    rfl
  | cons c cs ih =>
    intro b x
    have hall : allChildren (chainStore b (c :: cs)) =
        (b + 1) :: allChildren (chainStore (b + 1) cs) := by
      simp [chainStore, allChildren]
    rw [hall, List.count_cons, ih (b + 1) x]
    simp only [List.length_cons, beq_iff_eq]
    split_ifs <;> omega

theorem chain_unique (s : List Char) : uniqueRef (chainStore 0 s) 0 := by
  intro j hj h1
  rw [chainStore_length] at hj
  rw [chain_count]
  rw [if_pos (by omega)]

theorem denote_chain : ∀ (k : Nat) (s : List Char) (i : Nat), i ≤ s.length →
    s.length + 1 - i ≤ k →
    denoteV (chainStore 0 s) 0 k i = some (chainTree (s.drop i)) := by
  intro k
  induction k with
  | zero => intro s i h1 h2; omega
  | succ k ih =>
    intro s i h1 h2
    rcases Nat.lt_or_ge i s.length with hi | hi
    · have hrec : denoteV (chainStore 0 s) 0 k (i + 1) =
          some (chainTree (s.drop (i + 1))) := ih s (i + 1) (by omega) (by omega)
      have hget : (chainStore 0 s).get? i = some ⟨some (s.get ⟨i, hi⟩), [i + 1]⟩ := by
        have := chainStore_get?_lt s 0 i hi
        simpa using this
      simp only [denoteV, hget, optMapM, Nat.sub_zero, hrec]
      rw [List.drop_eq_get_cons hi]
      rfl
    · have hieq : i = s.length := by omega
      subst hieq
      have hget := chainStore_get?_len s 0
      simp only [denoteV, hget, optMapM]
      rw [List.drop_length]
      rfl

theorem fold_chainTree : ∀ l : List Char, RTree.fold toStrAlg (chainTree l) = l := by
  intro l
  induction l with
  | nil => simp [chainTree, RTree.fold_node, toStrAlg]
  | cons c cs ih => simp [chainTree, RTree.fold_node, toStrAlg, ih]

/-- C4: encoding a character sequence into a tree store with Expand
(`from_str`) and decoding it with the inverse string-concatenation Collapse
(`to_str`) reproduces the sequence exactly, the empty sequence included, for
any content `junk` of uninitialised scratch slots. -/
theorem round_trip (s : List Char) (junk : List Char) :
    ∃ st, from_str s = some st ∧ to_str junk st = s := by
  refine ⟨chainStore 0 s, from_str_eq s, ?_⟩
  rw [to_str]
  have hden : denoteV (chainStore 0 s) 0 (chainStore 0 s).length 0 =
      some (chainTree s) := by
    rw [chainStore_length]
    have := denote_chain (s.length + 1) s 0 (by omega) (by omega)
    simpa using this
  have hfold := collapse_layers_fold_of_inv (chainStore 0 s) toStrAlg (chainTree s)
    junk (chain_bound s) (chain_unique s) (by rw [chainStore_length]; omega) hden
  rw [hfold, fold_chainTree]

/-- C5: expanding the seed "abc" with the take-next-character generator
yields exactly the four-element store Cons(a,1), Cons(b,2), Cons(c,3),
Nil, and collapsing that store with the string-concatenation reducer gives
back "abc" whatever uninitialised scratch slots hold. -/
theorem abc_example :
    from_str ['a', 'b', 'c'] =
      some [⟨some 'a', [1]⟩, ⟨some 'b', [2]⟩, ⟨some 'c', [3]⟩, ⟨none, []⟩] ∧
    ∀ junk, to_str junk
      [⟨some 'a', [1]⟩, ⟨some 'b', [2]⟩, ⟨some 'c', [3]⟩, ⟨none, []⟩] =
      ['a', 'b', 'c'] := by
  constructor
  · rfl
  · intro junk
    rfl

theorem expand_topo_invariant_witness :
    expand_layers fromStrGen 2 ['a'] = some [⟨some 'a', [1]⟩, ⟨none, []⟩] ∧
    (0 < 1 ∧ (1 : Nat) ≠ 0) := by
  constructor
  · rfl
  · exact (expand_topo_invariant fromStrGen
      (fun s => (Except.ok (fromStrGen s) : Except Unit (Layer (Option Char) (List Char))))
      2 ['a'] [⟨some 'a', [1]⟩, ⟨none, []⟩] [⟨some 'a', [1]⟩, ⟨none, []⟩]).1
      rfl 0 ⟨some 'a', [1]⟩ rfl 1 (by simp)

theorem expand_async_short_circuit_witness :
    ∃ s, ((expandAsyncLoopTr gBoom 9 [0] ([] : List (Layer Unit Nat))).2).getLast? =
      some s ∧ gBoom s = Except.error "boom" :=
  (expand_async_short_circuit gBoom 9 0).2.2.1 "boom" rfl

/-- C8: on a nonempty store, `head` returns the root layer with its shape
unchanged and each child arena index `c` replaced by the borrowed view
whose slice is the store suffix starting at `c` and whose offset is `c`;
no reducer is involved anywhere in the computation. -/
theorem head_spec {S : Type} (el : List (Layer S Nat)) (l : Layer S Nat)
    (h : el.get? 0 = some l) :
    head el = some ⟨l.shape, l.children.map (fun c => OffsetView.mk (el.drop c) c)⟩ := by
  cases el with
  | nil => exact Option.noConfusion h
  | cons x xs =>
    have hx : x = l := Option.some.inj h
    subst hx
    rfl

theorem head_spec_witness :
    head ([⟨5, [1]⟩, ⟨6, []⟩] : List (Layer Nat Nat)) =
      some ⟨5, [OffsetView.mk [⟨6, []⟩] 1]⟩ :=
  head_spec [⟨5, [1]⟩, ⟨6, []⟩] ⟨5, [1]⟩ rfl

/-- C7 (code bug): on a borrowed view with nonzero offset, the context
collapse panics instead of folding: its write `results[idx - offset]`
subtracts the offset from the already slice-relative loop index, so for the
smallest view (one leaf slice at offset 1, its cached context supplied) the
`usize` subtraction underflows and the call dies instead of returning the
fold of the substructure. -/
theorem collapse_layers_3_offset_panics :
    collapse_layers_3 ([⟨(), []⟩] : List (Layer Unit Nat)) 1
      ([some ()] : List (Option Unit)) (fun _ => (0 : Nat)) = none := by
  rfl

/-- C3 counterexample: neither `MaybeUninit` collapse variant fails on a
store violating the topological invariant; both silently return whatever
the uninitialised scratch slot happened to contain.  The owning collapse is
run on a store whose single element references slot 0 (never written before
it is read), the offset view collapse on a one-element view at offset 1
whose element references its own slot; with uninitialised content 5 the
calls return 5, with 7 they return 7 — garbage out, no error. -/
theorem collapse_layers_returns_uninit :
    collapse_layers (5 : Nat) ([⟨(), [0]⟩] : List (Layer Unit Nat))
      (fun l => l.children.headD 0) = 5 ∧
    collapse_layers (7 : Nat) ([⟨(), [0]⟩] : List (Layer Unit Nat))
      (fun l => l.children.headD 0) = 7 ∧
    collapse_layers_off (5 : Nat) ([⟨(), [1]⟩] : List (Layer Unit Nat)) 1
      (fun l => l.children.headD 0) = 5 ∧
    collapse_layers_off (7 : Nat) ([⟨(), [1]⟩] : List (Layer Unit Nat)) 1
      (fun l => l.children.headD 0) = 7 :=
  ⟨rfl, rfl, rfl, rfl⟩

theorem readChildren2_none {S A : Type} (el : List (Layer S Nat))
    (r : List (Option A)) :
    ∀ cs : List Nat, (∃ c ∈ cs, ¬ ∃ v, r.get? c = some (some v)) →
      readChildren2 (A := A) el r cs = none := by
  intro cs
  induction cs with
  | nil => rintro ⟨c, hc, _⟩; simp at hc
  | cons c cs ih =>
    rintro ⟨c', hc', hbad⟩
    rcases List.mem_cons.1 hc' with rfl | hmem
    · simp only [readChildren2]
      cases hr : r.get? c' with
      | none => rfl
      | some ov =>
        cases ov with
        | none => rfl
        | some v => exact absurd ⟨v, hr⟩ hbad
    · simp only [readChildren2]
      cases hr : r.get? c with
      | none => rfl
      | some ov =>
        cases ov with
        | none => rfl
        | some v => rw [ih ⟨c', hmem, hbad⟩]

theorem collapseDown2_none {S A : Type} (g : Layer S (A × SubViewCtx S A) → A)
    (el : List (Layer S Nat)) :
    ∀ (i : Nat) (r : List (Option A)),
      (∀ j, j < i → ¬ ∃ v, r.get? j = some (some v)) →
      (∃ p, p < i ∧ ∃ l, el.get? p = some l ∧ ∃ c ∈ l.children, c ≤ p) →
      collapseDown2 g el i r = none := by
  intro i
  induction i with
  | zero => rintro r _ ⟨p, hp, _⟩; omega
  | succ i ih =>
    rintro r hlow ⟨p, hp, l, hl, c, hc, hcp⟩
    cases hel : el.get? i with
    | none => simp only [collapseDown2, hel]
    | some node =>
      simp only [collapseDown2, hel]
      by_cases hpi : p = i
      · subst hpi
        have hll : l = node := by
          rw [hl] at hel
          exact Option.some.inj hel
        subst hll
        rw [readChildren2_none el r l.children ⟨c, hc, hlow c (by omega)⟩]
      · cases hread : readChildren2 (A := A) el r node.children with
        | none => rfl
        | some pairs =>
          refine ih _ ?_ ⟨p, by omega, l, hl, c, hc, hcp⟩
          intro j hj
          rw [List.get?_set_ne _ _ (by omega)]
          exact hlow j (by omega)

/-- The `Option`-slot collapse with substructure fails immediately on a
store whose topological invariant is broken: an element whose child index
is not strictly above its own position makes the read of a never-written
slot panic (the `unwrap` of a `None`), aborting the call. -/
theorem collapse_layers_2_panics_on_violation {S A : Type}
    (el : List (Layer S Nat)) (g : Layer S (A × SubViewCtx S A) → A)
    (hbad : ∃ i, ∃ l, el.get? i = some l ∧ ∃ c ∈ l.children, c ≤ i) :
    collapse_layers_2 el g = none := by
  obtain ⟨i, l, hl, c, hc, hci⟩ := hbad
  have hi : i < el.length := (List.get?_eq_some.1 hl).1
  have hdown := collapseDown2_none g el el.length
    (List.replicate el.length none)
    (by
      intro j hj
      rintro ⟨v, hv⟩
      rw [get?_replicate_lt _ hj] at hv
      exact Option.noConfusion (Option.some.inj hv))
    ⟨i, hi, l, hl, c, hc, hci⟩
  simp only [collapse_layers_2, hdown]

theorem readChildren3_none {A C : Type} (o : Nat) (results : List (Option A))
    (ctx : List (Option C)) :
    ∀ cs : List Nat, (∃ c ∈ cs, c < o ∨ ¬ ∃ v, results.get? (c - o) = some (some v)) →
      readChildren3 (A := A) (C := C) o results ctx cs = none := by
  intro cs
  induction cs with
  | nil => rintro ⟨c, hc, _⟩; simp at hc
  | cons c cs ih =>
    rintro ⟨c', hc', hbad⟩
    rcases List.mem_cons.1 hc' with rfl | hmem
    · simp only [readChildren3]
      rcases hbad with hlt | hnv
      · rw [if_pos hlt]
      · by_cases hlt : c' < o
        · rw [if_pos hlt]
        · rw [if_neg hlt]
          cases hr : results.get? (c' - o) with
          | none => rfl
          | some ov =>
            cases ov with
            | none => rfl
            | some v => exact absurd ⟨v, hr⟩ hnv
    · simp only [readChildren3]
      by_cases hlt : c < o
      · rw [if_pos hlt]
      · rw [if_neg hlt]
        cases hr : results.get? (c - o) with
        | none => rfl
        | some ov =>
          cases ov with
          | none => rfl
          | some v =>
            cases hcx : ctx.get? (c - o) with
            | none => rfl
            | some ocv =>
              cases ocv with
              | none => rfl
              | some cv => rw [ih ⟨c', hmem, hbad⟩]

theorem collapseDown3_none_o0 {S A C : Type} (g : Layer S (C × A) → A)
    (el : List (Layer S Nat)) (ctx : List (Option C)) :
    ∀ (i : Nat) (r : List (Option A)),
      (∀ j, j < i → ¬ ∃ v, r.get? j = some (some v)) →
      (∃ p, p < i ∧ ∃ l, el.get? p = some l ∧ ∃ c ∈ l.children, c ≤ p) →
      collapseDown3 g el 0 ctx i r = none := by
  intro i
  induction i with
  | zero => rintro r _ ⟨p, hp, _⟩; omega
  | succ i ih =>
    rintro r hlow ⟨p, hp, l, hl, c, hc, hcp⟩
    cases hel : el.get? i with
    | none => simp only [collapseDown3, hel]
    | some node =>
      simp only [collapseDown3, hel]
      by_cases hpi : p = i
      · subst hpi
        have hll : l = node := by
          rw [hl] at hel
          exact Option.some.inj hel
        subst hll
        rw [readChildren3_none 0 r ctx l.children
          ⟨c, hc, Or.inr (by simpa using hlow c (by omega))⟩]
      · split
        · rfl
        · rename_i pairs hread
          rw [if_neg (by omega : ¬ i < 0)]
          by_cases hlen : i - 0 < r.length
          · rw [if_pos hlen]
            refine ih _ ?_ ⟨p, by omega, l, hl, c, hc, hcp⟩
            intro j hj
            rw [Nat.sub_zero, List.get?_set_ne _ _ (by omega)]
            exact hlow j (by omega)
          · rw [if_neg hlen]

theorem collapseDown3_pos_none {S A C : Type} (g : Layer S (C × A) → A)
    (el : List (Layer S Nat)) (o : Nat) (ctx : List (Option C)) (ho : 0 < o) :
    ∀ (i : Nat) (r : List (Option A)), 1 ≤ i → collapseDown3 g el o ctx i r = none := by
  intro i
  induction i with
  | zero => intro r h; omega
  | succ i ih =>
    intro r _
    cases hel : el.get? i with
    | none => simp only [collapseDown3, hel]
    | some node =>
      simp only [collapseDown3, hel]
      split
      · rfl
      · rename_i pairs hread
        by_cases hio : i < o
        · rw [if_pos hio]
        · rw [if_neg hio]
          by_cases hlen : i - o < r.length
          · rw [if_pos hlen]
            exact ih _ (by omega)
          · rw [if_neg hlen]

/-- C3 (amended): accessing a scratch slot that was never written makes the
`Option`-slot collapse variants fail immediately and loudly (the `unwrap` of
a `None` panics): `collapse_layers_2` fails on every store violating the
topological invariant, and `collapse_layers_3` fails on every violating
view — through the unwrap of the never-written slot on an offset-0 view,
and unconditionally on every nonzero-offset view, where its misdirected
write dies first.  The `MaybeUninit` variants, by contrast, silently read
uninitialised memory on such stores (see the counterexample). -/
theorem option_collapse_panics_on_violation {S A S₂ A₂ C₂ S₃ A₃ C₃ : Type}
    (el₁ : List (Layer S Nat)) (g₁ : Layer S (A × SubViewCtx S A) → A)
    (el₂ : List (Layer S₂ Nat)) (ctx₂ : List (Option C₂))
    (g₂ : Layer S₂ (C₂ × A₂) → A₂)
    (el₃ : List (Layer S₃ Nat)) (o₃ : Nat) (ctx₃ : List (Option C₃))
    (g₃ : Layer S₃ (C₃ × A₃) → A₃)
    (hbad₁ : ∃ i, ∃ l, el₁.get? i = some l ∧ ∃ c ∈ l.children, c ≤ i)
    (hbad₂ : ∃ i, ∃ l, el₂.get? i = some l ∧ ∃ c ∈ l.children, c ≤ i)
    (ho₃ : 0 < o₃) :
    collapse_layers_2 el₁ g₁ = none ∧
    collapse_layers_3 el₂ 0 ctx₂ g₂ = none ∧
    collapse_layers_3 el₃ o₃ ctx₃ g₃ = none := by
  refine ⟨collapse_layers_2_panics_on_violation el₁ g₁ hbad₁, ?_, ?_⟩
  · obtain ⟨i, l, hl, c, hc, hci⟩ := hbad₂
    have hi : i < el₂.length := (List.get?_eq_some.1 hl).1
    have hdown := collapseDown3_none_o0 g₂ el₂ ctx₂ el₂.length
      (List.replicate el₂.length none)
      (by
        intro j hj
        rintro ⟨v, hv⟩
        rw [get?_replicate_lt _ hj] at hv
        exact Option.noConfusion (Option.some.inj hv))
      ⟨i, hi, l, hl, c, hc, hci⟩
    simp only [collapse_layers_3, hdown]
  · cases hn : el₃.length with
    | zero =>
      have h0 : collapseDown3 g₃ el₃ o₃ ctx₃ el₃.length
          (List.replicate el₃.length (none : Option A₃)) =
          some (List.replicate el₃.length none) := by
        rw [hn]
        rfl
      rw [collapse_layers_3, h0, hn]
      rfl
    | succ m =>
      have hdown := collapseDown3_pos_none g₃ el₃ o₃ ctx₃ ho₃ el₃.length
        (List.replicate el₃.length none) (by omega)
      simp only [collapse_layers_3, hdown]

theorem option_collapse_panics_witness :
    collapse_layers_2 ([⟨(), [0]⟩] : List (Layer Unit Nat))
      (fun _ => (0 : Nat)) = none ∧
    collapse_layers_3 ([⟨(), [0]⟩] : List (Layer Unit Nat)) 0
      ([some ()] : List (Option Unit)) (fun _ => (0 : Nat)) = none ∧
    collapse_layers_3 ([⟨(), []⟩] : List (Layer Unit Nat)) 2
      ([some ()] : List (Option Unit)) (fun _ => (0 : Nat)) = none :=
  option_collapse_panics_on_violation [⟨(), [0]⟩] (fun _ => (0 : Nat))
    [⟨(), [0]⟩] [some ()] (fun _ => (0 : Nat))
    [⟨(), []⟩] 2 [some ()] (fun _ => (0 : Nat))
    ⟨0, ⟨(), [0]⟩, rfl, 0, by simp, by omega⟩
    ⟨0, ⟨(), [0]⟩, rfl, 0, by simp, by omega⟩
    (by omega)

/-!
Depth property of the file tree example (claim C9).
-/

theorem optMapM_mem {α β : Type} (f : α → Option β) :
    ∀ (as : List α) (bs : List β), optMapM f as = some bs →
      ∀ b ∈ bs, ∃ a ∈ as, f a = some b := by
  intro as
  induction as with
  | nil =>
    intro bs h b hb
    cases h
    simp at hb
  | cons a as ih =>
    intro bs h b hb
    simp only [optMapM] at h
    cases hfa : f a with
    | none => rw [hfa] at h; cases h
    | some b' =>
      rw [hfa] at h
      cases hrest : optMapM f as with
      | none => rw [hrest] at h; cases h
      | some bs' =>
        rw [hrest] at h
        cases h
        rcases List.mem_cons.1 hb with rfl | hmem
        · exact ⟨a, by simp, hfa⟩
        · obtain ⟨a', ha', hfa'⟩ := ih bs' hrest b hmem
          exact ⟨a', by simp [ha'], hfa'⟩

theorem denoteV_leafOnly {M : Type} (el : List (Layer (FTShape M) Nat)) (o : Nat)
    (hleaf : ∀ i l, el.get? i = some l → ∀ m, l.shape = FTShape.file m →
      l.children = []) :
    ∀ (fuel i : Nat) (t : RTree (FTShape M)), denoteV el o fuel i = some t →
      LeafOnlyFiles t := by
  intro fuel
  induction fuel with
  | zero => intro i t h; cases h
  | succ fuel ih =>
    intro i t h
    cases hel : el.get? i with
    | none =>
      simp only [denoteV, hel] at h
      exact Option.noConfusion h
    | some l =>
      simp only [denoteV, hel] at h
      cases hmm : optMapM (fun c => denoteV el o fuel (c - o)) l.children with
      | none => rw [hmm] at h; cases h
      | some ts =>
        rw [hmm] at h
        cases h
        refine LeafOnlyFiles.node l.shape ts ?_ ?_
        · intro m hm
          have hch : l.children = [] := hleaf i l hel m hm
          rw [hch] at hmm
          cases hmm
          rfl
        · intro t' ht'
          obtain ⟨c, _, hc⟩ := optMapM_mem _ l.children ts hmm t' ht'
          exact ih (c - o) t' hc

theorem fold_depthAlg_eq_maxPath {M : Type} :
    ∀ t : RTree (FTShape M), LeafOnlyFiles t →
      RTree.fold depthAlg t = maxPathNodes t := by
  intro t h
  induction h with
  | node s ts hfile hts ih =>
    rw [RTree.fold_node, maxPathNodes_node]
    cases s with
    | file m =>
      have hts' : ts = [] := hfile m rfl
      subst hts'
      simp [depthAlg]
    | dir =>
      simp only [depthAlg]
      rw [List.map_congr_left ih]
      omega

/-- C9: on a file tree store satisfying the arena invariant whose file
layers are childless, collapsing with the depth reducer (a directory is 1
plus the maximum of its children with default 0, a file is 1) returns
exactly the number of nodes on the longest root-to-leaf path of the
denoted tree; in particular a single-leaf store collapses to 1. -/
theorem depth_correct {M : Type} (el : List (Layer (FTShape M) Nat))
    (t : RTree (FTShape M)) (junk : Nat)
    (hb : ∀ i (hi : i < el.length), ∀ c ∈ (el.get ⟨i, hi⟩).children,
      i < c ∧ c < el.length)
    (hu : ∀ j, j < el.length → 1 ≤ j → (allChildren el).count j = 1)
    (h0 : 0 < el.length)
    (hden : denoteV el 0 el.length 0 = some t)
    (hleaf : ∀ i (hi : i < el.length), ∀ m,
      (el.get ⟨i, hi⟩).shape = FTShape.file m → (el.get ⟨i, hi⟩).children = []) :
    depth junk el = maxPathNodes t := by
  have hb' : boundInv el 0 := by
    refine boundInv_of_ball el 0 ?_
    intro i hi c hc
    have := hb i hi c hc
    omega
  have hu' : uniqueRef el 0 := by
    intro j ha hb1
    have := hu j ha hb1
    simpa using this
  have hC := collapse_layersC_fold el 0 depthAlg t hb' hu' h0 hden
  have hoff := collapse_off_of_checked el 0 depthAlg junk _ hC
  rw [depth, hoff]
  refine fold_depthAlg_eq_maxPath t ?_
  refine denoteV_leafOnly el 0 ?_ el.length 0 t hden
  intro i l hl m hm
  obtain ⟨hi, hget⟩ := List.get?_eq_some.1 hl
  have := hleaf i hi m (by rw [hget]; exact hm)
  rw [← hget]
  exact this

theorem depth_correct_witness :
    depth 99 ([⟨FTShape.dir, [1, 2]⟩, ⟨FTShape.file (), []⟩,
        ⟨FTShape.dir, [3]⟩, ⟨FTShape.file (), []⟩] : List (Layer (FTShape Unit) Nat)) =
      maxPathNodes (RTree.node FTShape.dir [RTree.node (FTShape.file ()) [],
        RTree.node FTShape.dir [RTree.node (FTShape.file ()) []]]) :=
  depth_correct [⟨FTShape.dir, [1, 2]⟩, ⟨FTShape.file (), []⟩,
      ⟨FTShape.dir, [3]⟩, ⟨FTShape.file (), []⟩]
    (RTree.node FTShape.dir [RTree.node (FTShape.file ()) [],
      RTree.node FTShape.dir [RTree.node (FTShape.file ()) []]]) 99
    (by decide) (by decide) (by decide) rfl (by decide)
